import Mathlib

/-!
# Verification of the proliferatr lattice-path mutation engine

A shallow embedding of the geometry library in `src/proliferatr/src`:
the `Point`/`Cardinal`/`Bound2D` primitives, the path containers
(`Path`/`ClosedPath`, both backed by a point sequence), the three mutators
relevant to the claims (`UnitSegmentAdder`, `PathCondenser`) and the `Grid`
bound checks.  Rust `i64` coordinates are modelled as `Int` (no claim under
study exercises wrap-around), `usize` as `Nat` with partiality made explicit
where the source can underflow or index out of range, `VecDeque<Point>` as
`List Point`, and `FxHashSet<Point>` by list membership.  The random number
generator is modelled as the stream of outcomes of the `gen_bool` calls: the
`attempt` / `plus_bias` probabilities only influence which outcome stream is
drawn, so quantifying over all boolean streams covers every seed and every
probability configuration.
-/

namespace Proliferatr

/-- The four compass directions of `src/direction.rs` `Cardinal`. -/
inductive Cardinal where
  | north
  | east
  | south
  | west
deriving DecidableEq, Repr

/-- 2D integer coordinate, `src/point.rs` `Point { x: i64, y: i64 }`. -/
structure Point where
  x : Int
  y : Int
deriving DecidableEq, Repr

/-- `Point::cardinal_to` (src/point.rs): direction from `self` to `other`,
translated branch by branch from the source. -/
def Point.cardinal_to (self other : Point) : Option Cardinal :=
  if self = other then none
  else if self.x = other.x then
    if self.y < other.y then some Cardinal.north else some Cardinal.south
  else if self.y = other.y then
    if self.x < other.x then some Cardinal.east else some Cardinal.west
  else none

/-- `AddAssign for Point`: componentwise addition (src/point.rs). -/
def Point.add (a b : Point) : Point := ⟨a.x + b.x, a.y + b.y⟩

instance : Add Point := ⟨Point.add⟩

/-- Componentwise negation, used to state the `translate` round trip
with `-delta`. -/
def Point.neg (a : Point) : Point := ⟨-a.x, -a.y⟩

instance : Neg Point := ⟨Point.neg⟩

/-- Scalar multiple of a point, used to characterise repeated unit steps. -/
def Point.scale (n : Nat) (d : Point) : Point := ⟨(n : Int) * d.x, (n : Int) * d.y⟩

/-- Two points are cardinal neighbours at distance exactly 1
(the glossary's "unit-step"). -/
def isUnitStep (a b : Point) : Bool := (a.x - b.x).natAbs + (a.y - b.y).natAbs == 1

/-- The unit-step relation as a `Prop`. -/
def unitAdj (a b : Point) : Prop := isUnitStep a b = true

instance : DecidableRel unitAdj := fun a b =>
  inferInstanceAs (Decidable (isUnitStep a b = true))

/-- Every consecutive pair of points of the path is a unit cardinal step. -/
def unitSteps (path : List Point) : Prop := List.Chain' unitAdj path

/-- Executable form of `unitSteps`, used for decidability. -/
def unitStepsB : List Point → Bool
  | [] => true
  | [_] => true
  | a :: b :: rest => isUnitStep a b && unitStepsB (b :: rest)

instance (path : List Point) : Decidable (unitSteps path) :=
  decidable_of_iff (unitStepsB path = true) (by
    induction path with
    | nil => simp [unitStepsB, unitSteps]
    | cons a rest ih =>
      cases rest with
      | nil => simp [unitStepsB, unitSteps]
      | cons b rest2 =>
        rw [unitStepsB, Bool.and_eq_true, unitSteps, List.chain'_cons]
        rw [unitSteps] at ih
        rw [ih]
        exact Iff.rfl)

/-- The unit displacement named by a cardinal direction (`North` = `+y`,
matching `cardinal_to`, which answers `North` when `self.y < other.y`). -/
def Cardinal.offset : Cardinal → Point
  | .north => ⟨0, 1⟩
  | .east => ⟨1, 0⟩
  | .south => ⟨0, -1⟩
  | .west => ⟨-1, 0⟩

/-- `src/bound.rs` `Bound2D` (all bounds inclusive). -/
structure Bound2D where
  min_x : Int
  max_x : Int
  min_y : Int
  max_y : Int
deriving DecidableEq, Repr

/-- `Bound2D::contains`: closed-interval test on both axes. -/
def Bound2D.contains (b : Bound2D) (p : Point) : Bool :=
  decide (b.min_x ≤ p.x) && decide (p.x ≤ b.max_x) &&
    decide (b.min_y ≤ p.y) && decide (p.y ≤ b.max_y)

/-- `Path::translate` / `ClosedPath::translate`: add `dxdy` to every point of
the sequence (both concrete `PointPath`s use the same implementation). -/
def translate (path : List Point) (dxdy : Point) : List Point :=
  path.map (fun p => p + dxdy)

/-- `src/path/closed_path.rs` `ClosedPathError`. -/
inductive ClosedPathError where
  | invalidDimension (width height : Nat)
deriving DecidableEq, Repr

/-- One Rust loop `for _ in 1..k { cur += delta; raw.push_back(cur); }` of
`rect_path`, i.e. `k - 1` iterations when called with that count: each
iteration advances `cur` by `delta` and appends the new `cur`. -/
def pushSteps (delta : Point) (k : Nat) (acc : List Point × Point) :
    List Point × Point :=
  (List.range k).foldl (fun a _ => (a.1 ++ [a.2 + delta], a.2 + delta)) acc

/-- `ClosedPath::rect_path` (src/path/closed_path.rs): clockwise rectangle of
unit segments anchored at the origin — up `height - 1` steps, right
`width - 1`, down `height - 1`, left `width - 1`. -/
def rect_path (width height : Nat) : Except ClosedPathError (List Point) :=
  if width < 1 ∨ height < 1 then
    Except.error (ClosedPathError.invalidDimension width height)
  else
    let a0 : List Point × Point := ([⟨0, 0⟩], ⟨0, 0⟩)
    let a1 := pushSteps ⟨0, 1⟩ (height - 1) a0
    let a2 := pushSteps ⟨1, 0⟩ (width - 1) a1
    let a3 := pushSteps ⟨0, -1⟩ (height - 1) a2
    let a4 := pushSteps ⟨-1, 0⟩ (width - 1) a3
    Except.ok a4.1

/-- `src/path/path_condenser.rs` `PathCondenser { limit: usize }`
(`limit = 0` means unlimited removals). -/
structure PathCondenser where
  limit : Nat
deriving DecidableEq, Repr

/-- The collinearity test `PathCondenser::mutate` applies to the window
`(path[start-1], path[start], path[start+1])`. -/
def removableWindow (p1 p2 p3 : Point) : Bool :=
  match p1.cardinal_to p2, p2.cardinal_to p3 with
  | some d1, some d2 => decide (d1 = d2)
  | _, _ => false

/-- The `while` loop of `PathCondenser::mutate`: remove the window's centre
and stay, or advance `start`; stop when the removal limit is reached or
`start` reaches `len - 1`.  The wildcard arm is unreachable: the guard keeps
all three indices in range for the loop's actual invocations (`start ≥ 1`). -/
def condenseLoop (limit removals start : Nat) (path : List Point) :
    List Point × Nat :=
  if h : (limit = 0 ∨ removals < limit) ∧ start < path.length - 1 then
    match path[start - 1]?, path[start]?, path[start + 1]? with
    | some p1, some p2, some p3 =>
      if removableWindow p1 p2 p3 then
        condenseLoop limit (removals + 1) start (path.eraseIdx start)
      else
        condenseLoop limit removals (start + 1) path
    | _, _, _ => (path, removals)
  else (path, removals)
termination_by path.length - start
decreasing_by
  · have h2 := h.2
    have hlt : start < path.length := by omega
    have hlen : (path.eraseIdx start).length = path.length - 1 := by
      rw [List.length_eraseIdx, if_pos hlt]
    omega
  · have := h.2
    omega

/-- `PathCondenser::mutate` (src/path/path_condenser.rs): paths shorter than
3 points are left untouched; otherwise run the scan from `start = 1` and
report whether any removal happened. -/
def PathCondenser.mutate (c : PathCondenser) (path : List Point) :
    List Point × Bool :=
  if path.length < 3 then (path, false)
  else
    let r := condenseLoop c.limit 0 1 path
    (r.1, decide (0 < r.2))

/-- `src/path/unit_segment_adder.rs` `UnitSegmentAdder`: optional bound,
pass count, RNG (modelled as the stream of `gen_bool` outcomes) and the
avoidance set (modelled as a list queried by membership).  The `attempt` and
`plus_bias` probabilities are absorbed into the outcome stream. -/
structure UnitSegmentAdder where
  bounds : Option Bound2D
  passes : Nat
  rng : List Bool
  avoid : List Point
deriving DecidableEq, Repr

/-- Draw one `gen_bool` outcome from the modelled RNG stream. -/
def nextBool : List Bool → Bool × List Bool
  | [] => (false, [])
  | b :: rest => (b, rest)

/-- The perpendicular displacement of the edge `(p1, p2)`: an east/west edge
shifts both `y` coordinates by `±1`, a north/south edge both `x`
coordinates, the sign chosen by the `plus_bias` roll. -/
def shiftPair (dir : Cardinal) (plus : Bool) (p1 p2 : Point) : Point × Point :=
  match dir with
  | .east | .west =>
    if plus then (⟨p1.x, p1.y + 1⟩, ⟨p2.x, p2.y + 1⟩)
    else (⟨p1.x, p1.y - 1⟩, ⟨p2.x, p2.y - 1⟩)
  | .north | .south =>
    if plus then (⟨p1.x + 1, p1.y⟩, ⟨p2.x + 1, p2.y⟩)
    else (⟨p1.x - 1, p1.y⟩, ⟨p2.x - 1, p2.y⟩)

/-- `if let Some(bounds) = self.bounds { if !contains(p1) || !contains(p2)
{ continue } }`: `true` when the shifted pair survives the bound check. -/
def boundsOk : Option Bound2D → Point → Point → Bool
  | none, _, _ => true
  | some b, q1, q2 => b.contains q1 && b.contains q2

/-- `VecDeque::insert`-style insertion before index `i`. -/
def insertAt (i : Nat) (p : Point) (path : List Point) : List Point :=
  path.take i ++ p :: path.drop i

/-- The body of `for i in (0..(path.len() - 1)).rev()` in
`UnitSegmentAdder::mutate` for one index `i`: roll the attempt, find the
edge's direction, shift, check bounds and the avoidance set, and on success
record both shifted points and splice them in as
`path.insert(i+1, p2); path.insert(i+1, p1)`.  The wildcard arm is
unreachable for the indices the pass produces (both lookups always hit). -/
def tryEdge (acc : UnitSegmentAdder × List Point × Bool) (i : Nat) :
    UnitSegmentAdder × List Point × Bool :=
  let st := acc.1
  let path := acc.2.1
  let flag := acc.2.2
  match path[i]?, path[i + 1]? with
  | some p1, some p2 =>
    let att := nextBool st.rng
    if att.1 then
      match p1.cardinal_to p2 with
      | some dir =>
        let plus := nextBool att.2
        let q := shiftPair dir plus.1 p1 p2
        let st2 : UnitSegmentAdder := { st with rng := plus.2 }
        if boundsOk st.bounds q.1 q.2 then
          if q.1 ∈ st.avoid ∨ q.2 ∈ st.avoid then (st2, path, flag)
          else
            ({ st2 with avoid := q.1 :: q.2 :: st.avoid },
              insertAt (i + 1) q.1 (insertAt (i + 1) q.2 path), true)
        else (st2, path, flag)
      | none => ({ st with rng := att.2 }, path, flag)
    else ({ st with rng := att.2 }, path, flag)
  | _, _ => acc

/-- One pass of `UnitSegmentAdder::mutate`: visit the edges from the last
index down to the first.  On the empty path `path.len() - 1` underflows in
the source (a `usize` subtraction), so the pass has no defined result:
modelled by `none`. -/
def runPass (st : UnitSegmentAdder) (path : List Point) (flag : Bool) :
    Option (UnitSegmentAdder × List Point × Bool) :=
  match path.length with
  | 0 => none
  | n + 1 => some (((List.range n).reverse).foldl tryEdge (st, path, flag))

/-- The outer `for _ in 0..self.passes` loop of `UnitSegmentAdder::mutate`. -/
def runPasses : Nat → UnitSegmentAdder → List Point → Bool →
    Option (UnitSegmentAdder × List Point × Bool)
  | 0, st, path, flag => some (st, path, flag)
  | k + 1, st, path, flag =>
    match runPass st path flag with
    | none => none
    | some r => runPasses k r.1 r.2.1 r.2.2

/-- `UnitSegmentAdder::mutate` (src/path/unit_segment_adder.rs): first extend
the avoidance set with every current point of the path, then run the passes.
Returns the final adder state, the mutated path and the `any_mutations`
flag. -/
def UnitSegmentAdder.mutate (st : UnitSegmentAdder) (path : List Point) :
    Option (UnitSegmentAdder × List Point × Bool) :=
  runPasses st.passes { st with avoid := path ++ st.avoid } path false

/-- A finite sequence of `UnitSegmentAdder::mutate` calls, each call given
its own adder (configuration, RNG and avoidance state), each feeding its
mutated path to the next. -/
def mutateSeq : List UnitSegmentAdder → List Point → Option (List Point)
  | [], path => some path
  | st :: rest, path =>
    match st.mutate path with
    | none => none
    | some r => mutateSeq rest r.2.1

/-- `src/grid.rs` `Grid<T>`: row-major cells with cached dimensions. -/
structure Grid (α : Type) where
  cells : List (List α)
  width : Nat
  height : Nat
deriving DecidableEq, Repr

/-- `Grid::new(width, height, fill)`. -/
def Grid.new (w h : Nat) (fill : α) : Grid α :=
  ⟨List.replicate h (List.replicate w fill), w, h⟩

/-- The bound check shared by `Grid::get`, `Grid::get_mut` and `Grid::set`:
note the comparisons are `<=` against `width`/`height`, not `<`. -/
def Grid.checkBounds (g : Grid α) (p : Point) : Bool :=
  decide (0 ≤ p.x) && decide (p.x ≤ (g.width : Int)) &&
    decide (0 ≤ p.y) && decide (p.y ≤ (g.height : Int))

/-- `Grid::get`: when the check passes the source indexes
`self.cells[y][x]`, which panics (`Except.error ()`) if either index is
outside the stored cells; when the check fails it returns `None`. -/
def Grid.get (g : Grid α) (p : Point) : Except Unit (Option α) :=
  if g.checkBounds p then
    match g.cells[p.y.toNat]? with
    | some row =>
      match row[p.x.toNat]? with
      | some v => Except.ok (some v)
      | none => Except.error ()
    | none => Except.error ()
  else Except.ok none

/-- `Grid::get_mut`: identical check and indexing as `Grid::get`; the mutable
borrow it hands out is modelled by the value read. -/
def Grid.get_mut (g : Grid α) (p : Point) : Except Unit (Option α) :=
  Grid.get g p

/-- `Grid::set`: same `<=` check; on success writes the cell in place and
returns `true`, on a failed check returns `false`, and panics
(`Except.error ()`) when the check passes but the indexing is out of range
of the stored cells. -/
def Grid.set (g : Grid α) (p : Point) (v : α) : Except Unit (Grid α × Bool) :=
  if g.checkBounds p then
    match g.cells[p.y.toNat]? with
    | some row =>
      if p.x.toNat < row.length then
        Except.ok ({ g with cells := g.cells.set p.y.toNat (row.set p.x.toNat v) }, true)
      else Except.error ()
    | none => Except.error ()
  else Except.ok (g, false)

/-- The invariant `UnitSegmentAdder::mutate` maintains: the path is
self-avoiding, every consecutive pair is a unit step, and every point of the
path is recorded in the avoidance set. -/
def goodState (st : UnitSegmentAdder) (path : List Point) : Prop :=
  path.Nodup ∧ unitSteps path ∧ ∀ p ∈ path, p ∈ st.avoid

/-- No interior window of the path is collinear-removable: the fixpoint
property that `PathCondenser::mutate` with unlimited removals establishes. -/
def noRemovable (path : List Point) : Prop :=
  ∀ (c : Nat) (p1 p2 p3 : Point), 1 ≤ c → path[c - 1]? = some p1 →
    path[c]? = some p2 → path[c + 1]? = some p3 →
    removableWindow p1 p2 p3 = false

/-! ## Basic lemmas about the primitives -/

theorem Point.add_def (a b : Point) : a + b = ⟨a.x + b.x, a.y + b.y⟩ := rfl

theorem Point.neg_def (a : Point) : -a = ⟨-a.x, -a.y⟩ := rfl

theorem cardinal_to_north (a b : Point) (hx : a.x = b.x) (hy : a.y < b.y) :
    a.cardinal_to b = some Cardinal.north := by
  have hne : a ≠ b := by intro h; subst h; omega
  simp [Point.cardinal_to, hne, hx, hy]

theorem cardinal_to_south (a b : Point) (hx : a.x = b.x) (hy : b.y < a.y) :
    a.cardinal_to b = some Cardinal.south := by
  have hne : a ≠ b := by intro h; subst h; omega
  have hy' : ¬a.y < b.y := by omega
  simp [Point.cardinal_to, hne, hx, hy']

theorem cardinal_to_east (a b : Point) (hy : a.y = b.y) (hx : a.x < b.x) :
    a.cardinal_to b = some Cardinal.east := by
  have hne : a ≠ b := by intro h; subst h; omega
  have hx' : ¬a.x = b.x := by omega
  simp [Point.cardinal_to, hne, hx', hy, hx]

theorem cardinal_to_west (a b : Point) (hy : a.y = b.y) (hx : b.x < a.x) :
    a.cardinal_to b = some Cardinal.west := by
  have hne : a ≠ b := by intro h; subst h; omega
  have hx' : ¬a.x = b.x := by omega
  have hx'' : ¬a.x < b.x := by omega
  simp [Point.cardinal_to, hne, hx', hy, hx'']

/-! ## Claim theorems: point primitives -/

/-- C2 counterexample: `(0,0)` and `(3,0)` are axis-aligned at distance 3 —
not cardinal neighbours — yet `cardinal_to` answers `East`, not `none` as
the claim requires for distances greater than 1. -/
theorem c2_counterexample :
    isUnitStep ⟨0, 0⟩ ⟨3, 0⟩ = false ∧
      Point.cardinal_to ⟨0, 0⟩ ⟨3, 0⟩ = some Cardinal.east := by decide

/-- C2 (amended): `cardinal_to` returns `none` exactly for equal points and
for points differing in both coordinates; for distinct axis-aligned points
it returns the direction of the displacement regardless of distance (the
four directional conjuncts cover every such pair), and in particular for
genuine cardinal neighbours it returns precisely the unique compass
direction whose unit offset carries `a` to `b`. -/
theorem c2_cardinal_to_characterization (a b : Point) :
    (a.cardinal_to b = none ↔ a = b ∨ (a.x ≠ b.x ∧ a.y ≠ b.y)) ∧
      (a.x = b.x → a.y < b.y → a.cardinal_to b = some Cardinal.north) ∧
      (a.x = b.x → b.y < a.y → a.cardinal_to b = some Cardinal.south) ∧
      (a.y = b.y → a.x < b.x → a.cardinal_to b = some Cardinal.east) ∧
      (a.y = b.y → b.x < a.x → a.cardinal_to b = some Cardinal.west) ∧
      (isUnitStep a b = true →
        ∀ d : Cardinal, (a.cardinal_to b = some d ↔ b = a + d.offset)) := by
  refine ⟨?_, cardinal_to_north a b, cardinal_to_south a b,
    cardinal_to_east a b, cardinal_to_west a b, ?_⟩
  all_goals obtain ⟨ax, ay⟩ := a
  all_goals obtain ⟨bx, gy⟩ := b
  · unfold Point.cardinal_to
    split_ifs with h1 h2 h3 h4 h5 <;> simp_all [Point.mk.injEq]
  · intro hu d
    have hx : (bx = ax + 1 ∧ gy = ay) ∨ (bx = ax - 1 ∧ gy = ay) ∨
        (bx = ax ∧ gy = ay + 1) ∨ (bx = ax ∧ gy = ay - 1) := by
      simp only [isUnitStep, beq_iff_eq] at hu
      omega
    rcases hx with ⟨hbx, hby⟩ | ⟨hbx, hby⟩ | ⟨hbx, hby⟩ | ⟨hbx, hby⟩
    · have hc := cardinal_to_east ⟨ax, ay⟩ ⟨bx, gy⟩ (by simp; omega) (by simp; omega)
      cases d <;> rw [hc] <;> simp [Cardinal.offset, Point.add_def, Point.mk.injEq] <;> omega
    · have hc := cardinal_to_west ⟨ax, ay⟩ ⟨bx, gy⟩ (by simp; omega) (by simp; omega)
      cases d <;> rw [hc] <;> simp [Cardinal.offset, Point.add_def, Point.mk.injEq] <;> omega
    · have hc := cardinal_to_north ⟨ax, ay⟩ ⟨bx, gy⟩ (by simp; omega) (by simp; omega)
      cases d <;> rw [hc] <;> simp [Cardinal.offset, Point.add_def, Point.mk.injEq] <;> omega
    · have hc := cardinal_to_south ⟨ax, ay⟩ ⟨bx, gy⟩ (by simp; omega) (by simp; omega)
      cases d <;> rw [hc] <;> simp [Cardinal.offset, Point.add_def, Point.mk.injEq] <;> omega

/-- C2 witness: the amended characterisation applied to the axis-aligned
pair `(0,0)`, `(3,0)` at distance 3 (whose direction is `East`) and to the
concrete cardinal neighbours `(0,0)` and `(1,0)`. -/
theorem c2_witness :
    Point.cardinal_to ⟨0, 0⟩ ⟨3, 0⟩ = some Cardinal.east ∧
      isUnitStep ⟨0, 0⟩ ⟨1, 0⟩ = true ∧
      (Point.cardinal_to ⟨0, 0⟩ ⟨1, 0⟩ = some Cardinal.east ↔
        (⟨1, 0⟩ : Point) = ⟨0, 0⟩ + Cardinal.east.offset) :=
  ⟨(c2_cardinal_to_characterization ⟨0, 0⟩ ⟨3, 0⟩).2.2.2.1 (by decide) (by decide),
    by decide,
    (c2_cardinal_to_characterization ⟨0, 0⟩ ⟨1, 0⟩).2.2.2.2.2 (by decide) Cardinal.east⟩

/-- C8: translating a path by `delta` and then by `-delta` restores the
original point sequence exactly. -/
theorem c8_translate_roundtrip (path : List Point) (delta : Point) :
    translate (translate path delta) (-delta) = path := by
  unfold translate
  rw [List.map_map]
  have hcomp : (fun p : Point => p + -delta) ∘ (fun p : Point => p + delta) = id := by
    funext p
    obtain ⟨px, py⟩ := p
    obtain ⟨dx, dy⟩ := delta
    show Point.mk (px + dx + -dx) (py + dy + -dy) = Point.mk px py
    congr 1 <;> ring
  rw [hcomp, List.map_id]

/-- C6: `rect_path` fails with `InvalidDimension` exactly when
`width < 1 || height < 1`; in particular `rect_path(0, 5)` and
`rect_path(5, 0)` fail, and the error result carries no path object. -/
theorem c6_rect_path_error_iff :
    (∀ w h : Nat,
        rect_path w h = Except.error (ClosedPathError.invalidDimension w h) ↔
          w < 1 ∨ h < 1) ∧
      rect_path 0 5 = Except.error (ClosedPathError.invalidDimension 0 5) ∧
      rect_path 5 0 = Except.error (ClosedPathError.invalidDimension 5 0) := by
  refine ⟨fun w h => ⟨?_, ?_⟩, rfl, rfl⟩
  · intro he
    by_contra hcon
    push_neg at hcon
    unfold rect_path at he
    rw [if_neg (by omega)] at he
    exact Except.noConfusion he
  · intro hcond
    unfold rect_path
    rw [if_pos hcond]

/-! ## Claim theorems: Grid bound checks -/

/-- C7: the `<=` bound checks of `Grid::get`, `Grid::get_mut` and `Grid::set`
accept the one-past-the-end point `(width, 0)`, whose subsequent row indexing
then runs outside the stored cells (a panic, modelled by `Except.error ()`);
strictly interior points are accessed validly by `get`, `get_mut` and `set`
(`set` succeeds with `true` and the written cell is readable), and points
failing the check make `get`/`get_mut` return `None` and `set` return
`false` untouched. -/
theorem c7_grid_bounds_offbyone {α : Type} (w h : Nat) (fill : α) :
    (1 ≤ h →
      (Grid.new w h fill).checkBounds ⟨(w : Int), 0⟩ = true ∧
        (Grid.new w h fill).get ⟨(w : Int), 0⟩ = Except.error () ∧
        (Grid.new w h fill).get_mut ⟨(w : Int), 0⟩ = Except.error () ∧
        (Grid.new w h fill).set ⟨(w : Int), 0⟩ fill = Except.error ()) ∧
      (∀ p : Point, 0 ≤ p.x → p.x < (w : Int) → 0 ≤ p.y → p.y < (h : Int) →
        (Grid.new w h fill).get p = Except.ok (some fill) ∧
          (Grid.new w h fill).get_mut p = Except.ok (some fill) ∧
          ∀ v : α, ∃ g' : Grid α,
            (Grid.new w h fill).set p v = Except.ok (g', true) ∧
            g'.get p = Except.ok (some v)) ∧
      (∀ p : Point, (Grid.new w h fill).checkBounds p = false →
        (Grid.new w h fill).get p = Except.ok none ∧
          (Grid.new w h fill).get_mut p = Except.ok none ∧
          (Grid.new w h fill).set p fill = Except.ok (Grid.new w h fill, false)) := by
  refine ⟨fun hh => ?_, fun p h1 h2 h3 h4 => ?_, fun p hcb => ?_⟩
  · have h0 : 0 < h := hh
    refine ⟨?_, ?_, ?_, ?_⟩ <;>
      simp [Grid.get, Grid.get_mut, Grid.set, Grid.new, Grid.checkBounds,
        List.getElem?_replicate, h0]
  · have hy : p.y.toNat < h := by omega
    have hx : p.x.toNat < w := by omega
    have hxle : p.x ≤ (w : Int) := by omega
    have hyle : p.y ≤ (h : Int) := by omega
    refine ⟨?_, ?_, ?_⟩
    · simp [Grid.get, Grid.new, Grid.checkBounds, List.getElem?_replicate,
        hy, hx, h1, h3, hxle, hyle]
    · simp [Grid.get_mut, Grid.get, Grid.new, Grid.checkBounds, List.getElem?_replicate,
        hy, hx, h1, h3, hxle, hyle]
    · intro v
      refine ⟨⟨(List.replicate h (List.replicate w fill)).set p.y.toNat
          ((List.replicate w fill).set p.x.toNat v), w, h⟩, ?_, ?_⟩
      · simp [Grid.set, Grid.new, Grid.checkBounds, List.getElem?_replicate,
          hy, hx, h1, h3, hxle, hyle]
      · simp [Grid.get, Grid.checkBounds, List.getElem?_set, List.length_replicate,
          List.length_set, hy, hx, h1, h3, hxle, hyle]
  · rw [Grid.checkBounds] at hcb
    refine ⟨?_, ?_, ?_⟩ <;>
      simp [Grid.get, Grid.get_mut, Grid.set, Grid.new, Grid.checkBounds] <;>
      simp [Grid.new] at hcb <;> omega

/-- C7 witness: the theorem applied to a concrete `2 × 2` grid, exhibiting
the accepted-but-panicking point `(2, 0)`, a valid interior access at
`(1, 1)` and a rejected access at `(-1, 0)`. -/
theorem c7_witness :
    ((Grid.new 2 2 (0 : Nat)).checkBounds ⟨2, 0⟩ = true ∧
        (Grid.new 2 2 (0 : Nat)).get ⟨2, 0⟩ = Except.error () ∧
        (Grid.new 2 2 (0 : Nat)).get_mut ⟨2, 0⟩ = Except.error () ∧
        (Grid.new 2 2 (0 : Nat)).set ⟨2, 0⟩ 0 = Except.error ()) ∧
      ((Grid.new 2 2 (0 : Nat)).get ⟨1, 1⟩ = Except.ok (some 0) ∧
        (Grid.new 2 2 (0 : Nat)).get_mut ⟨1, 1⟩ = Except.ok (some 0) ∧
        (∃ g' : Grid Nat, (Grid.new 2 2 (0 : Nat)).set ⟨1, 1⟩ 9 = Except.ok (g', true) ∧
          g'.get ⟨1, 1⟩ = Except.ok (some 9))) ∧
      ((Grid.new 2 2 (0 : Nat)).get ⟨-1, 0⟩ = Except.ok none ∧
        (Grid.new 2 2 (0 : Nat)).get_mut ⟨-1, 0⟩ = Except.ok none ∧
        (Grid.new 2 2 (0 : Nat)).set ⟨-1, 0⟩ 0 = Except.ok (Grid.new 2 2 0, false)) :=
  ⟨(c7_grid_bounds_offbyone 2 2 0).1 (by decide),
    ⟨((c7_grid_bounds_offbyone 2 2 0).2.1 ⟨1, 1⟩ (by decide) (by decide) (by decide)
        (by decide)).1,
      ((c7_grid_bounds_offbyone 2 2 0).2.1 ⟨1, 1⟩ (by decide) (by decide) (by decide)
        (by decide)).2.1,
      ((c7_grid_bounds_offbyone 2 2 0).2.1 ⟨1, 1⟩ (by decide) (by decide) (by decide)
        (by decide)).2.2 9⟩,
    (c7_grid_bounds_offbyone 2 2 0).2.2 ⟨-1, 0⟩ (by decide)⟩

/-! ## Claim theorems: rect_path construction -/

theorem unitAdj_add (p delta : Point) (hd : delta.x.natAbs + delta.y.natAbs = 1) :
    unitAdj p (p + delta) := by
  obtain ⟨px, py⟩ := p
  obtain ⟨dx, dy⟩ := delta
  simp only [unitAdj, isUnitStep, Point.add_def, beq_iff_eq]
  simp only at hd
  omega

theorem pushSteps_succ (delta : Point) (k : Nat) (acc : List Point × Point) :
    pushSteps delta (k + 1) acc =
      ((pushSteps delta k acc).1 ++ [(pushSteps delta k acc).2 + delta],
        (pushSteps delta k acc).2 + delta) := by
  unfold pushSteps
  rw [List.range_succ, List.foldl_append]
  rfl

/-- The loop invariant of each of the four `rect_path` walks: appending `k`
steps of a unit `delta` keeps the path a unit-step chain, keeps the running
cursor as the last point, grows the length by `k`, preserves the head, and
moves the cursor by `k * delta`. -/
theorem pushSteps_inv (delta : Point) (hd : delta.x.natAbs + delta.y.natAbs = 1)
    (k : Nat) (acc : List Point) (cur : Point)
    (hch : List.Chain' unitAdj acc) (hlast : acc.getLast? = some cur) :
    List.Chain' unitAdj (pushSteps delta k (acc, cur)).1 ∧
      (pushSteps delta k (acc, cur)).1.getLast? = some (pushSteps delta k (acc, cur)).2 ∧
      (pushSteps delta k (acc, cur)).1.length = acc.length + k ∧
      (pushSteps delta k (acc, cur)).1.head? = acc.head? ∧
      (pushSteps delta k (acc, cur)).2 = cur + Point.scale k delta := by
  have hne : acc ≠ [] := by
    intro hcon
    subst hcon
    simp at hlast
  induction k with
  | zero =>
    refine ⟨hch, hlast, by simp [pushSteps], rfl, ?_⟩
    show cur = cur + Point.scale 0 delta
    obtain ⟨cx, cy⟩ := cur
    simp [Point.scale, Point.add_def]
  | succ n ih =>
    obtain ⟨ih1, ih2, ih3, ih4, ih5⟩ := ih
    rw [pushSteps_succ]
    refine ⟨?_, ?_, ?_, ?_, ?_⟩
    · rw [List.chain'_append]
      refine ⟨ih1, List.chain'_singleton _, ?_⟩
      intro x hx y hy
      rw [ih2] at hx
      simp at hx hy
      subst hx
      subst hy
      exact unitAdj_add _ _ hd
    · simp
    · simp [ih3]
      omega
    · rw [List.head?_append, ih4]
      obtain ⟨a0, t⟩ : ∃ a0 t, acc = a0 :: t := by
        cases acc with
        | nil => exact absurd rfl hne
        | cons a t => exact ⟨a, t, rfl⟩
      obtain ⟨t, rfl⟩ := t
      rfl
    · rw [ih5]
      obtain ⟨cx, cy⟩ := cur
      obtain ⟨dx, dy⟩ := delta
      simp [Point.scale, Point.add_def, Point.mk.injEq]
      constructor <;> push_cast <;> ring

/-- C4: for all `width, height ≥ 1`, `rect_path` succeeds, the result has
length `2*width + 2*height - 4 + 1`, its first point equals its last point,
and every consecutive pair of points is a unit cardinal step. -/
theorem c4_rect_path_spec (w h : Nat) (hw : 1 ≤ w) (hh : 1 ≤ h) :
    ∃ pts : List Point, rect_path w h = Except.ok pts ∧
      pts.length = 2 * w + 2 * h - 4 + 1 ∧
      pts.head? = pts.getLast? ∧ unitSteps pts := by
  have i1 := pushSteps_inv ⟨0, 1⟩ (by decide) (h - 1) [⟨0, 0⟩] ⟨0, 0⟩
    (List.chain'_singleton _) (by simp)
  set a1 := pushSteps ⟨0, 1⟩ (h - 1) ([⟨0, 0⟩], ⟨0, 0⟩) with ha1
  obtain ⟨i11, i12, i13, i14, i15⟩ := i1
  have i2 := pushSteps_inv ⟨1, 0⟩ (by decide) (w - 1) a1.1 a1.2 i11 i12
  set a2 := pushSteps ⟨1, 0⟩ (w - 1) (a1.1, a1.2) with ha2
  obtain ⟨i21, i22, i23, i24, i25⟩ := i2
  have i3 := pushSteps_inv ⟨0, -1⟩ (by decide) (h - 1) a2.1 a2.2 i21 i22
  set a3 := pushSteps ⟨0, -1⟩ (h - 1) (a2.1, a2.2) with ha3
  obtain ⟨i31, i32, i33, i34, i35⟩ := i3
  have i4 := pushSteps_inv ⟨-1, 0⟩ (by decide) (w - 1) a3.1 a3.2 i31 i32
  set a4 := pushSteps ⟨-1, 0⟩ (w - 1) (a3.1, a3.2) with ha4
  obtain ⟨i41, i42, i43, i44, i45⟩ := i4
  refine ⟨a4.1, ?_, ?_, ?_, i41⟩
  · unfold rect_path
    rw [if_neg (by omega)]
  · simp only [i43, i33, i23, i13, List.length_singleton]
    omega
  · rw [i44, i34, i24, i14, i42, i45, i35, i25, i15]
    have hcur : (⟨0, 0⟩ : Point) + Point.scale (h - 1) ⟨0, 1⟩ + Point.scale (w - 1) ⟨1, 0⟩ +
        Point.scale (h - 1) ⟨0, -1⟩ + Point.scale (w - 1) ⟨-1, 0⟩ = ⟨0, 0⟩ := by
      simp [Point.scale, Point.add_def, Point.mk.injEq]
    rw [hcur]
    rfl

/-- C4 witness: the rectangle specification at `width = 2`, `height = 3`. -/
theorem c4_witness :
    1 ≤ 2 ∧ 1 ≤ 3 ∧
      (∃ pts : List Point, rect_path 2 3 = Except.ok pts ∧
        pts.length = 2 * 2 + 2 * 3 - 4 + 1 ∧
        pts.head? = pts.getLast? ∧ unitSteps pts) :=
  ⟨by decide, by decide, c4_rect_path_spec 2 3 (by decide) (by decide)⟩

/-! ## Claim theorems: UnitSegmentAdder domain edge cases -/

theorem runPass_singleton (st : UnitSegmentAdder) (p0 : Point) (flag : Bool) :
    runPass st [p0] flag = some (st, [p0], flag) := rfl

theorem runPasses_singleton (k : Nat) (st : UnitSegmentAdder) (p0 : Point) (flag : Bool) :
    runPasses k st [p0] flag = some (st, [p0], flag) := by
  induction k with
  | zero => rfl
  | succ n ih => rw [runPasses, runPass_singleton]; exact ih

/-- C9: `UnitSegmentAdder::mutate` computes `path.len() - 1` inside each
pass without guarding against emptiness, so whenever at least one pass runs
the empty path has no defined result (the `usize` subtraction underflows);
a path of length exactly 1 is always well-defined, left unchanged and
reported unmutated. -/
theorem c9_mutate_empty_singleton (st : UnitSegmentAdder) :
    (1 ≤ st.passes → st.mutate [] = none) ∧
      (∀ p0 : Point, ∃ st', st.mutate [p0] = some (st', [p0], false)) := by
  constructor
  · intro hp
    unfold UnitSegmentAdder.mutate
    obtain ⟨k, hk⟩ : ∃ k, st.passes = k + 1 := ⟨st.passes - 1, by omega⟩
    rw [hk]
    rfl
  · intro p0
    exact ⟨{ st with avoid := [p0] ++ st.avoid }, runPasses_singleton _ _ _ _⟩

/-- C9 witness: a default-configured adder (one pass) at the empty path and
at the singleton path `[(0,0)]`. -/
theorem c9_witness :
    1 ≤ (1 : Nat) ∧
      UnitSegmentAdder.mutate ⟨none, 1, [], []⟩ [] = none ∧
      (∃ st', UnitSegmentAdder.mutate ⟨none, 1, [], []⟩ [⟨0, 0⟩] = some (st', [⟨0, 0⟩], false)) :=
  ⟨by decide, (c9_mutate_empty_singleton ⟨none, 1, [], []⟩).1 (by decide),
    (c9_mutate_empty_singleton ⟨none, 1, [], []⟩).2 ⟨0, 0⟩⟩

/-! ## UnitSegmentAdder invariant infrastructure -/

theorem unitAdj_symm (a b : Point) (h : unitAdj a b) : unitAdj b a := by
  simp only [unitAdj, isUnitStep, beq_iff_eq] at h ⊢
  omega

theorem unitAdj_translate (a b d : Point) (h : unitAdj a b) : unitAdj (a + d) (b + d) := by
  obtain ⟨ax, ay⟩ := a
  obtain ⟨bx, gy⟩ := b
  obtain ⟨dx, dy⟩ := d
  simp only [unitAdj, isUnitStep, Point.add_def, beq_iff_eq] at h ⊢
  omega

theorem unitAdj_ne (a b : Point) (h : unitAdj a b) : a ≠ b := by
  intro hcon
  subst hcon
  simp only [unitAdj, isUnitStep, beq_iff_eq] at h
  omega

theorem Point.add_right_cancel (a b d : Point) (h : a + d = b + d) : a = b := by
  obtain ⟨ax, ay⟩ := a
  obtain ⟨bx, gy⟩ := b
  obtain ⟨dx, dy⟩ := d
  simp only [Point.add_def, Point.mk.injEq] at h ⊢
  omega

/-- Both shifted points of `shiftPair` are the originals displaced by one
common perpendicular unit vector. -/
theorem shiftPair_spec (dir : Cardinal) (plus : Bool) (p1 p2 : Point) :
    ∃ d : Point, d.x.natAbs + d.y.natAbs = 1 ∧
      (shiftPair dir plus p1 p2).1 = p1 + d ∧ (shiftPair dir plus p1 p2).2 = p2 + d := by
  obtain ⟨x1, y1⟩ := p1
  obtain ⟨x2, y2⟩ := p2
  cases dir with
  | east =>
    cases plus with
    | true => exact ⟨⟨0, 1⟩, by decide, by simp [shiftPair, Point.add_def]; try omega, by
        simp [shiftPair, Point.add_def]; try omega⟩
    | false => exact ⟨⟨0, -1⟩, by decide, by simp [shiftPair, Point.add_def]; try omega, by
        simp [shiftPair, Point.add_def]; try omega⟩
  | west =>
    cases plus with
    | true => exact ⟨⟨0, 1⟩, by decide, by simp [shiftPair, Point.add_def]; try omega, by
        simp [shiftPair, Point.add_def]; try omega⟩
    | false => exact ⟨⟨0, -1⟩, by decide, by simp [shiftPair, Point.add_def]; try omega, by
        simp [shiftPair, Point.add_def]; try omega⟩
  | north =>
    cases plus with
    | true => exact ⟨⟨1, 0⟩, by decide, by simp [shiftPair, Point.add_def]; try omega, by
        simp [shiftPair, Point.add_def]; try omega⟩
    | false => exact ⟨⟨-1, 0⟩, by decide, by simp [shiftPair, Point.add_def]; try omega, by
        simp [shiftPair, Point.add_def]; try omega⟩
  | south =>
    cases plus with
    | true => exact ⟨⟨1, 0⟩, by decide, by simp [shiftPair, Point.add_def]; try omega, by
        simp [shiftPair, Point.add_def]; try omega⟩
    | false => exact ⟨⟨-1, 0⟩, by decide, by simp [shiftPair, Point.add_def]; try omega, by
        simp [shiftPair, Point.add_def]; try omega⟩

theorem lt_length_of_getElem? {l : List Point} {i : Nat} {p : Point}
    (h : l[i]? = some p) : i < l.length := by
  rcases Nat.lt_or_ge i l.length with h1 | h1
  · exact h1
  · rw [List.getElem?_eq_none h1] at h
    exact Option.noConfusion h

theorem chain'_consecutive (path : List Point) (hc : List.Chain' unitAdj path)
    (i : Nat) (p1 p2 : Point) (h1 : path[i]? = some p1) (h2 : path[i + 1]? = some p2) :
    unitAdj p1 p2 := by
  have hi2 : i + 1 < path.length := lt_length_of_getElem? h2
  rw [List.chain'_iff_get] at hc
  have hr := hc i (by omega)
  have e1 : path[i] = p1 := by
    rw [List.getElem?_eq_getElem (by omega)] at h1
    exact Option.some.inj h1
  have e2 : path[i + 1] = p2 := by
    rw [List.getElem?_eq_getElem (by omega)] at h2
    exact Option.some.inj h2
  rw [List.get_eq_getElem, List.get_eq_getElem] at hr
  rw [e1, e2] at hr
  exact hr

theorem take_getLast?_of_getElem? (path : List Point) (i : Nat) (p1 : Point)
    (h : path[i]? = some p1) : (path.take (i + 1)).getLast? = some p1 := by
  have hi : i < path.length := lt_length_of_getElem? h
  rw [List.getLast?_eq_getElem?, List.length_take]
  have hmin : min (i + 1) path.length = i + 1 := by omega
  rw [hmin]
  simp [List.getElem?_take, h]

theorem mem_insertAt (p q : Point) (i : Nat) (path : List Point) :
    p ∈ insertAt i q path ↔ p = q ∨ p ∈ path := by
  unfold insertAt
  rw [List.mem_append, List.mem_cons]
  constructor
  · rintro (hp | hp | hp)
    · exact Or.inr (List.take_subset _ _ hp)
    · exact Or.inl hp
    · exact Or.inr (List.drop_subset _ _ hp)
  · rintro (hp | hp)
    · exact Or.inr (Or.inl hp)
    · conv at hp => rw [← List.take_append_drop i path]
      rcases List.mem_append.1 hp with hp | hp
      · exact Or.inl hp
      · exact Or.inr (Or.inr hp)

theorem insertAt_insertAt (path : List Point) (i : Nat) (q1 q2 : Point)
    (hi : i < path.length) :
    insertAt (i + 1) q1 (insertAt (i + 1) q2 path) =
      path.take (i + 1) ++ q1 :: q2 :: path.drop (i + 1) := by
  unfold insertAt
  have hlen : (path.take (i + 1)).length = i + 1 := by
    rw [List.length_take]
    omega
  rw [List.take_left' hlen, List.drop_left' hlen]

/-- Case analysis on one `tryEdge` step: either the path, the avoidance set
and the bound configuration are all untouched, or the step accepted a bump:
the edge `(p1, p2)` at `(i, i+1)` existed, had a direction, the two shifted
points passed the bound check, were fresh for the avoidance set, were added
to it, and were spliced into the path between `i` and `i + 1`. -/
theorem tryEdge_cases (acc : UnitSegmentAdder × List Point × Bool) (i : Nat) :
    ((tryEdge acc i).2.1 = acc.2.1 ∧ (tryEdge acc i).1.avoid = acc.1.avoid ∧
      (tryEdge acc i).1.bounds = acc.1.bounds) ∨
    (∃ p1 p2 dir plus,
      acc.2.1[i]? = some p1 ∧ acc.2.1[i + 1]? = some p2 ∧
      Point.cardinal_to p1 p2 = some dir ∧
      boundsOk acc.1.bounds (shiftPair dir plus p1 p2).1 (shiftPair dir plus p1 p2).2 = true ∧
      (shiftPair dir plus p1 p2).1 ∉ acc.1.avoid ∧
      (shiftPair dir plus p1 p2).2 ∉ acc.1.avoid ∧
      (tryEdge acc i).1.avoid =
        (shiftPair dir plus p1 p2).1 :: (shiftPair dir plus p1 p2).2 :: acc.1.avoid ∧
      (tryEdge acc i).1.bounds = acc.1.bounds ∧
      (tryEdge acc i).2.1 =
        insertAt (i + 1) (shiftPair dir plus p1 p2).1
          (insertAt (i + 1) (shiftPair dir plus p1 p2).2 acc.2.1)) := by
  obtain ⟨st, path, flag⟩ := acc
  simp only [tryEdge]
  split
  case h_2 => exact Or.inl ⟨rfl, rfl, rfl⟩
  case h_1 p1 p2 hp1 hp2 =>
    split
    · split
      · rename_i dir hdir
        split
        · rename_i hbok
          split
          · exact Or.inl ⟨rfl, rfl, rfl⟩
          · rename_i hmem
            push_neg at hmem
            exact Or.inr ⟨p1, p2, dir, _, hp1, hp2, hdir, hbok,
              hmem.1, hmem.2, rfl, rfl, rfl⟩
        · exact Or.inl ⟨rfl, rfl, rfl⟩
      · exact Or.inl ⟨rfl, rfl, rfl⟩
    · exact Or.inl ⟨rfl, rfl, rfl⟩

theorem tryEdge_good (acc : UnitSegmentAdder × List Point × Bool) (i : Nat)
    (hg : goodState acc.1 acc.2.1) : goodState (tryEdge acc i).1 (tryEdge acc i).2.1 := by
  obtain ⟨hnd, hus, hav⟩ := hg
  rcases tryEdge_cases acc i with ⟨hp, ha, _⟩ |
    ⟨p1, p2, dir, plus, hp1, hp2, _, _, hq1, hq2, ha, _, hp⟩
  · exact ⟨hp ▸ hnd, hp ▸ hus, fun p hmem => ha ▸ hav p (hp ▸ hmem)⟩
  · obtain ⟨d, hd, hq1eq, hq2eq⟩ := shiftPair_spec dir plus p1 p2
    set q1 := (shiftPair dir plus p1 p2).1 with hq1def
    set q2 := (shiftPair dir plus p1 p2).2 with hq2def
    have hi : i < acc.2.1.length := lt_length_of_getElem? hp1
    have hdecomp : (tryEdge acc i).2.1 =
        acc.2.1.take (i + 1) ++ q1 :: q2 :: acc.2.1.drop (i + 1) := by
      rw [hp, insertAt_insertAt _ _ _ _ hi]
    have hABeq : acc.2.1.take (i + 1) ++ acc.2.1.drop (i + 1) = acc.2.1 :=
      List.take_append_drop _ _
    have hlastA : (acc.2.1.take (i + 1)).getLast? = some p1 :=
      take_getLast?_of_getElem? _ _ _ hp1
    have hheadB : (acc.2.1.drop (i + 1)).head? = some p2 := by
      rw [List.head?_drop]
      exact hp2
    have hadj : unitAdj p1 p2 := chain'_consecutive _ hus i p1 p2 hp1 hp2
    have hne12 : q1 ≠ q2 := by
      intro hcon
      rw [hq1eq, hq2eq] at hcon
      exact unitAdj_ne p1 p2 hadj (Point.add_right_cancel _ _ _ hcon)
    have hq1path : q1 ∉ acc.2.1 := fun hmem => hq1 (hav q1 hmem)
    have hq2path : q2 ∉ acc.2.1 := fun hmem => hq2 (hav q2 hmem)
    have husAB := hus
    rw [← hABeq] at husAB
    have hchA := (List.chain'_append.1 husAB).1
    have hchB := (List.chain'_append.1 husAB).2.1
    refine ⟨?_, ?_, ?_⟩
    · rw [hdecomp, List.nodup_middle, List.nodup_cons]
      constructor
      · intro hmem
        rcases List.mem_append.1 hmem with hmem | hmem
        · exact hq1path (List.take_subset _ _ hmem)
        · rcases List.mem_cons.1 hmem with hmem | hmem
          · exact hne12 hmem
          · exact hq1path (List.drop_subset _ _ hmem)
      · rw [List.nodup_middle, List.nodup_cons, hABeq]
        exact ⟨hq2path, hnd⟩
    · rw [unitSteps] at hus ⊢
      rw [hdecomp, List.chain'_append]
      refine ⟨hchA, ?_, ?_⟩
      · rw [List.chain'_cons, List.chain'_cons']
        refine ⟨?_, ?_, hchB⟩
        · rw [hq1eq, hq2eq]
          exact unitAdj_translate _ _ _ hadj
        · intro y hy
          rw [hheadB, Option.mem_some_iff] at hy
          subst hy
          apply unitAdj_symm
          rw [hq2eq]
          exact unitAdj_add _ _ hd
      · intro x hx y hy
        rw [hlastA, Option.mem_some_iff] at hx
        rw [List.head?_cons, Option.mem_some_iff] at hy
        subst hx
        subst hy
        rw [hq1eq]
        exact unitAdj_add _ _ hd
    · intro p hmem
      rw [hdecomp] at hmem
      rw [ha]
      rcases List.mem_append.1 hmem with hmem | hmem
      · exact List.mem_cons_of_mem _ (List.mem_cons_of_mem _
          (hav p (List.take_subset _ _ hmem)))
      · rcases List.mem_cons.1 hmem with hmem | hmem
        · exact hmem ▸ List.mem_cons_self _ _
        · rcases List.mem_cons.1 hmem with hmem | hmem
          · exact hmem ▸ List.mem_cons_of_mem _ (List.mem_cons_self _ _)
          · exact List.mem_cons_of_mem _ (List.mem_cons_of_mem _
              (hav p (List.drop_subset _ _ hmem)))

theorem tryEdge_boundsInv (acc : UnitSegmentAdder × List Point × Bool) (i : Nat)
    (b : Bound2D) (hb : acc.1.bounds = some b)
    (hin : ∀ p ∈ acc.2.1, b.contains p = true) :
    (tryEdge acc i).1.bounds = some b ∧
      ∀ p ∈ (tryEdge acc i).2.1, b.contains p = true := by
  rcases tryEdge_cases acc i with ⟨hp, _, hbd⟩ |
    ⟨p1, p2, dir, plus, _, _, _, hbok, _, _, _, hbd, hp⟩
  · exact ⟨hbd ▸ hb, fun p hmem => hin p (hp ▸ hmem)⟩
  · rw [hb] at hbok
    simp only [boundsOk, Bool.and_eq_true] at hbok
    refine ⟨hbd ▸ hb, ?_⟩
    intro p hmem
    rw [hp, mem_insertAt, mem_insertAt] at hmem
    rcases hmem with hmem | hmem | hmem
    · exact hmem ▸ hbok.1
    · exact hmem ▸ hbok.2
    · exact hin p hmem

/-- Preservation of a predicate through the inner edge loop of a pass. -/
theorem foldl_tryEdge_preserve {P : UnitSegmentAdder × List Point × Bool → Prop}
    (hstep : ∀ acc i, P acc → P (tryEdge acc i)) :
    ∀ (l : List Nat) (acc), P acc → P (List.foldl tryEdge acc l) := by
  intro l
  induction l with
  | nil => exact fun acc h => h
  | cons j t ih => exact fun acc h => ih _ (hstep _ _ h)

theorem runPass_preserve {P : UnitSegmentAdder × List Point × Bool → Prop}
    (hstep : ∀ acc i, P acc → P (tryEdge acc i))
    (st : UnitSegmentAdder) (path : List Point) (flag : Bool)
    (r : UnitSegmentAdder × List Point × Bool)
    (h : runPass st path flag = some r) (h0 : P (st, path, flag)) : P r := by
  unfold runPass at h
  split at h
  · exact Option.noConfusion h
  · exact Option.some.inj h ▸ foldl_tryEdge_preserve hstep _ _ h0

theorem runPasses_preserve {P : UnitSegmentAdder × List Point × Bool → Prop}
    (hstep : ∀ acc i, P acc → P (tryEdge acc i)) :
    ∀ (k : Nat) (st : UnitSegmentAdder) (path : List Point) (flag : Bool)
      (r : UnitSegmentAdder × List Point × Bool),
      runPasses k st path flag = some r → P (st, path, flag) → P r := by
  intro k
  induction k with
  | zero =>
    intro st path flag r h h0
    exact Option.some.inj h ▸ h0
  | succ n ih =>
    intro st path flag r h h0
    unfold runPasses at h
    split at h
    · exact Option.noConfusion h
    · rename_i r1 hr1
      exact ih _ _ _ _ h (runPass_preserve hstep _ _ _ _ hr1 h0)

/-- One `UnitSegmentAdder::mutate` call on a self-avoiding unit-step path
keeps it self-avoiding and unit-step (and records its points in the final
avoidance set). -/
theorem mutate_good (st : UnitSegmentAdder) (path : List Point)
    (r : UnitSegmentAdder × List Point × Bool) (h : st.mutate path = some r)
    (hnd : path.Nodup) (hus : unitSteps path) : goodState r.1 r.2.1 := by
  unfold UnitSegmentAdder.mutate at h
  refine runPasses_preserve (P := fun a => goodState a.1 a.2.1) ?_ _ _ _ _ _ h ?_
  · exact fun acc i hg => tryEdge_good acc i hg
  · exact ⟨hnd, hus, fun p hp => List.mem_append.2 (Or.inl hp)⟩

/-- C1: for every self-avoiding unit-step path, after any finite sequence of
`UnitSegmentAdder::mutate` calls (each with an arbitrary configuration, RNG
and avoidance state) the resulting path still has no duplicate point and
every consecutive pair is still a unit cardinal step. -/
theorem c1_mutate_preserves_invariants (sts : List UnitSegmentAdder)
    (path path' : List Point) (hnd : path.Nodup) (hus : unitSteps path)
    (h : mutateSeq sts path = some path') : path'.Nodup ∧ unitSteps path' := by
  induction sts generalizing path with
  | nil =>
    unfold mutateSeq at h
    rw [← Option.some.inj h]
    exact ⟨hnd, hus⟩
  | cons st rest ih =>
    unfold mutateSeq at h
    split at h
    · exact Option.noConfusion h
    · rename_i r hr
      obtain ⟨hnd', hus', _⟩ := mutate_good st path r hr hnd hus
      exact ih _ hnd' hus' h

/-- C1 witness: a two-point unit path bumped once by a concrete adder whose
RNG accepts the single edge, yielding a concrete four-point path that is
still self-avoiding and unit-step. -/
theorem c1_witness :
    ([⟨0, 0⟩, ⟨1, 0⟩] : List Point).Nodup ∧ unitSteps [⟨0, 0⟩, ⟨1, 0⟩] ∧
      mutateSeq [⟨none, 1, [true, true], []⟩] [⟨0, 0⟩, ⟨1, 0⟩] =
        some [⟨0, 0⟩, ⟨0, 1⟩, ⟨1, 1⟩, ⟨1, 0⟩] ∧
      ([⟨0, 0⟩, ⟨0, 1⟩, ⟨1, 1⟩, ⟨1, 0⟩] : List Point).Nodup ∧
      unitSteps [⟨0, 0⟩, ⟨0, 1⟩, ⟨1, 1⟩, ⟨1, 0⟩] :=
  ⟨by decide, by decide, by decide,
    c1_mutate_preserves_invariants [⟨none, 1, [true, true], []⟩]
      [⟨0, 0⟩, ⟨1, 0⟩] [⟨0, 0⟩, ⟨0, 1⟩, ⟨1, 1⟩, ⟨1, 0⟩]
      (by decide) (by decide) (by decide)⟩

/-- C3 counterexample to the claim as stated: an adder with the degenerate
bound `[0,0] × [0,0]` applied to the path `[(5,0), (6,0)]` (which already
lies outside the bound) leaves the path unchanged — after `mutate`, the
point `(5,0)` of the mutated path is not contained in the bound, so a
precondition on the input path is required. -/
theorem c3_counterexample :
    (UnitSegmentAdder.mutate ⟨some ⟨0, 0, 0, 0⟩, 1, [], []⟩ [⟨5, 0⟩, ⟨6, 0⟩]).map
        (fun r => r.2.1) = some [⟨5, 0⟩, ⟨6, 0⟩] ∧
      Bound2D.contains ⟨0, 0, 0, 0⟩ ⟨5, 0⟩ = false := by decide

/-- C3 (amended): if a `Bound2D` is configured and every point of the input
path lies inside it, then after `UnitSegmentAdder::mutate` every point of
the mutated path still lies inside it. -/
theorem c3_bounds_preserved (st : UnitSegmentAdder) (b : Bound2D)
    (path : List Point) (r : UnitSegmentAdder × List Point × Bool)
    (hb : st.bounds = some b) (hin : ∀ p ∈ path, b.contains p = true)
    (h : st.mutate path = some r) : ∀ p ∈ r.2.1, b.contains p = true := by
  unfold UnitSegmentAdder.mutate at h
  have hres := runPasses_preserve
    (P := fun a => a.1.bounds = some b ∧ ∀ p ∈ a.2.1, b.contains p = true)
    (fun acc i hpre => tryEdge_boundsInv acc i b hpre.1 hpre.2) _ _ _ _ _ h ⟨hb, hin⟩
  exact hres.2

/-- C3 witness: the amended preservation applied to a unit square bound and
the edge `[(0,0), (1,0)]`, with an RNG that accepts a bump upward. -/
theorem c3_witness :
    (UnitSegmentAdder.bounds ⟨some ⟨0, 1, 0, 1⟩, 1, [true, true], []⟩ = some ⟨0, 1, 0, 1⟩) ∧
      (∀ p ∈ ([⟨0, 0⟩, ⟨1, 0⟩] : List Point), Bound2D.contains ⟨0, 1, 0, 1⟩ p = true) ∧
      UnitSegmentAdder.mutate ⟨some ⟨0, 1, 0, 1⟩, 1, [true, true], []⟩ [⟨0, 0⟩, ⟨1, 0⟩] =
        some (⟨some ⟨0, 1, 0, 1⟩, 1, [], [⟨0, 1⟩, ⟨1, 1⟩, ⟨0, 0⟩, ⟨1, 0⟩]⟩,
          [⟨0, 0⟩, ⟨0, 1⟩, ⟨1, 1⟩, ⟨1, 0⟩], true) ∧
      (∀ p ∈ ([⟨0, 0⟩, ⟨0, 1⟩, ⟨1, 1⟩, ⟨1, 0⟩] : List Point),
        Bound2D.contains ⟨0, 1, 0, 1⟩ p = true) :=
  ⟨by decide, by decide, by decide,
    c3_bounds_preserved ⟨some ⟨0, 1, 0, 1⟩, 1, [true, true], []⟩ ⟨0, 1, 0, 1⟩
      [⟨0, 0⟩, ⟨1, 0⟩]
      (⟨some ⟨0, 1, 0, 1⟩, 1, [], [⟨0, 1⟩, ⟨1, 1⟩, ⟨0, 0⟩, ⟨1, 0⟩]⟩,
        [⟨0, 0⟩, ⟨0, 1⟩, ⟨1, 1⟩, ⟨1, 0⟩], true)
      (by decide) (by decide) (by decide)⟩

/-! ## PathCondenser lemmas -/

theorem cardinal_to_some_north (a b : Point) (h : a.cardinal_to b = some Cardinal.north) :
    a.x = b.x ∧ a.y < b.y := by
  unfold Point.cardinal_to at h
  split_ifs at h <;> simp_all

theorem cardinal_to_some_south (a b : Point) (h : a.cardinal_to b = some Cardinal.south) :
    a.x = b.x ∧ b.y < a.y := by
  by_cases h1 : a = b
  · unfold Point.cardinal_to at h
    rw [if_pos h1] at h
    exact Option.noConfusion h
  · by_cases h2 : a.x = b.x
    · by_cases h3 : a.y < b.y
      · rw [cardinal_to_north a b h2 h3] at h
        simp at h
      · refine ⟨h2, ?_⟩
        have hne : a.y ≠ b.y := by
          intro hcon
          apply h1
          obtain ⟨ax, ay⟩ := a
          obtain ⟨bx, gy⟩ := b
          simp_all [Point.mk.injEq]
        omega
    · unfold Point.cardinal_to at h
      rw [if_neg h1, if_neg h2] at h
      split_ifs at h <;> simp_all

theorem cardinal_to_some_east (a b : Point) (h : a.cardinal_to b = some Cardinal.east) :
    a.y = b.y ∧ a.x < b.x := by
  unfold Point.cardinal_to at h
  split_ifs at h <;> simp_all

theorem cardinal_to_some_west (a b : Point) (h : a.cardinal_to b = some Cardinal.west) :
    a.y = b.y ∧ b.x < a.x := by
  by_cases h1 : a = b
  · unfold Point.cardinal_to at h
    rw [if_pos h1] at h
    exact Option.noConfusion h
  · by_cases h2 : a.x = b.x
    · unfold Point.cardinal_to at h
      rw [if_neg h1, if_pos h2] at h
      split_ifs at h <;> simp_all
    · by_cases h4 : a.y = b.y
      · by_cases h5 : a.x < b.x
        · rw [cardinal_to_east a b h4 h5] at h
          simp at h
        · exact ⟨h4, by omega⟩
      · unfold Point.cardinal_to at h
        rw [if_neg h1, if_neg h2, if_neg h4] at h
        exact Option.noConfusion h

/-- `cardinal_to` is transitive in its direction: two consecutive moves in
the same compass direction compose to a (longer) move in that direction.
This is what makes a removal never re-expose an already-scanned window. -/
theorem cardinal_to_trans (a b c : Point) (d : Cardinal)
    (h1 : a.cardinal_to b = some d) (h2 : b.cardinal_to c = some d) :
    a.cardinal_to c = some d := by
  cases d with
  | north =>
    obtain ⟨hx1, hy1⟩ := cardinal_to_some_north a b h1
    obtain ⟨hx2, hy2⟩ := cardinal_to_some_north b c h2
    exact cardinal_to_north a c (by omega) (by omega)
  | south =>
    obtain ⟨hx1, hy1⟩ := cardinal_to_some_south a b h1
    obtain ⟨hx2, hy2⟩ := cardinal_to_some_south b c h2
    exact cardinal_to_south a c (by omega) (by omega)
  | east =>
    obtain ⟨hy1, hx1⟩ := cardinal_to_some_east a b h1
    obtain ⟨hy2, hx2⟩ := cardinal_to_some_east b c h2
    exact cardinal_to_east a c (by omega) (by omega)
  | west =>
    obtain ⟨hy1, hx1⟩ := cardinal_to_some_west a b h1
    obtain ⟨hy2, hx2⟩ := cardinal_to_some_west b c h2
    exact cardinal_to_west a c (by omega) (by omega)

theorem removableWindow_iff (p1 p2 p3 : Point) :
    removableWindow p1 p2 p3 = true ↔
      ∃ d, p1.cardinal_to p2 = some d ∧ p2.cardinal_to p3 = some d := by
  unfold removableWindow
  rcases h1 : p1.cardinal_to p2 with _ | d1 <;> rcases h2 : p2.cardinal_to p3 with _ | d2 <;>
    simp [eq_comm]

theorem condenseLoop_stop (limit removals start : Nat) (path : List Point)
    (h : ¬((limit = 0 ∨ removals < limit) ∧ start < path.length - 1)) :
    condenseLoop limit removals start path = (path, removals) := by
  rw [condenseLoop.eq_def, dif_neg h]

theorem condenseLoop_removal (limit removals start : Nat) (path : List Point)
    (hg : (limit = 0 ∨ removals < limit) ∧ start < path.length - 1)
    (p1 p2 p3 : Point) (h1 : path[start - 1]? = some p1) (h2 : path[start]? = some p2)
    (h3 : path[start + 1]? = some p3) (hrem : removableWindow p1 p2 p3 = true) :
    condenseLoop limit removals start path =
      condenseLoop limit (removals + 1) start (path.eraseIdx start) := by
  rw [condenseLoop.eq_def, dif_pos hg]
  simp only [h1, h2, h3]
  rw [if_pos hrem]

theorem condenseLoop_advance (limit removals start : Nat) (path : List Point)
    (hg : (limit = 0 ∨ removals < limit) ∧ start < path.length - 1)
    (p1 p2 p3 : Point) (h1 : path[start - 1]? = some p1) (h2 : path[start]? = some p2)
    (h3 : path[start + 1]? = some p3) (hrem : removableWindow p1 p2 p3 = false) :
    condenseLoop limit removals start path =
      condenseLoop limit removals (start + 1) path := by
  rw [condenseLoop.eq_def, dif_pos hg]
  simp only [h1, h2, h3]
  rw [if_neg (by simp [hrem])]

/-- The scan only ever erases interior indices: the result is a subsequence
of the input that keeps the first and the last point. -/
theorem condenseLoop_shape (limit removals start : Nat) (path : List Point) :
    1 ≤ start →
      (condenseLoop limit removals start path).1.Sublist path ∧
        (condenseLoop limit removals start path).1.head? = path.head? ∧
        (condenseLoop limit removals start path).1.getLast? = path.getLast? := by
  induction removals, start, path using condenseLoop.induct limit with
  | case1 removals start path hg p1 p2 p3 h3 h2 h1 hrem ih =>
    intro hs
    rw [condenseLoop_removal limit removals start path hg p1 p2 p3 h1 h2 h3 hrem]
    obtain ⟨ihs, ihh, ihl⟩ := ih hs
    have hlt : start < path.length := by
      have := hg.2
      omega
    refine ⟨ihs.trans (List.eraseIdx_sublist path start), ?_, ?_⟩
    · rw [ihh, List.head?_eq_getElem?, List.head?_eq_getElem?, List.getElem?_eraseIdx,
        if_pos (by omega)]
    · have hlen : (path.eraseIdx start).length = path.length - 1 := by
        rw [List.length_eraseIdx, if_pos hlt]
      rw [ihl, List.getLast?_eq_getElem?, List.getLast?_eq_getElem?, hlen,
        List.getElem?_eraseIdx, if_neg (by have := hg.2; omega)]
      congr 1
      have := hg.2
      omega
  | case2 removals start path hg p1 p2 p3 h3 h2 h1 hrem ih =>
    intro hs
    have hrem2 : removableWindow p1 p2 p3 = false := by simpa using hrem
    rw [condenseLoop_advance limit removals start path hg p1 p2 p3 h1 h2 h3 hrem2]
    exact ih (by omega)
  | case3 removals start path hg hnone =>
    intro hs
    exfalso
    have h2 := hg.2
    exact hnone path[start - 1] path[start] path[start + 1]
      (List.getElem?_eq_getElem (by omega)) (List.getElem?_eq_getElem (by omega))
      (List.getElem?_eq_getElem (by omega))
  | case4 removals start path hng =>
    intro hs
    rw [condenseLoop_stop limit removals start path hng]
    exact ⟨List.Sublist.refl _, rfl, rfl⟩

/-- After an unlimited scan that has already cleared every window left of
`start`, the final path has no removable window at all: a removal never
re-creates a removable window at an earlier position, because the new
adjacency it creates points in the very direction the old one did. -/
theorem condenseLoop_fixpoint (removals start : Nat) (path : List Point) :
    1 ≤ start →
      (∀ (c : Nat) (q1 q2 q3 : Point), 1 ≤ c → c < start →
        path[c - 1]? = some q1 → path[c]? = some q2 → path[c + 1]? = some q3 →
        removableWindow q1 q2 q3 = false) →
      noRemovable (condenseLoop 0 removals start path).1 := by
  induction removals, start, path using condenseLoop.induct 0 with
  | case1 removals start path hg p1 p2 p3 h3 h2 h1 hrem ih =>
    intro hs hinv
    rw [condenseLoop_removal 0 removals start path hg p1 p2 p3 h1 h2 h3 hrem]
    apply ih hs
    intro c q1 q2 q3 hc1 hcs hq1 hq2 hq3
    have hlt : start < path.length := by
      have := hg.2
      omega
    rw [List.getElem?_eraseIdx, if_pos (by omega)] at hq1
    rw [List.getElem?_eraseIdx, if_pos (by omega)] at hq2
    rw [List.getElem?_eraseIdx] at hq3
    by_cases hce : c + 1 < start
    · rw [if_pos hce] at hq3
      exact hinv c q1 q2 q3 hc1 hcs hq1 hq2 hq3
    · rw [if_neg hce] at hq3
      have hceq : c + 1 = start := by omega
      have hq2p1 : q2 = p1 := by
        have hcell : path[c]? = path[start - 1]? := by
          congr 1
          omega
        rw [hcell, h1] at hq2
        exact (Option.some.inj hq2).symm
      have hq3p3 : q3 = p3 := by
        have hcell : path[c + 1 + 1]? = path[start + 1]? := by
          congr 1
          omega
        rw [hcell, h3] at hq3
        exact (Option.some.inj hq3).symm
      have holdc : path[c + 1]? = some p2 := by
        rw [hceq]
        exact h2
      have hold := hinv c q1 q2 p2 hc1 hcs hq1 hq2 holdc
      rw [hq2p1] at hold
      rw [hq2p1, hq3p3]
      obtain ⟨dB, hB1, hB2⟩ := (removableWindow_iff p1 p2 p3).1 hrem
      have hAC : p1.cardinal_to p3 = some dB := cardinal_to_trans p1 p2 p3 dB hB1 hB2
      by_contra hcon
      rw [Bool.not_eq_false] at hcon
      obtain ⟨dA, hA1, hA2⟩ := (removableWindow_iff q1 p1 p3).1 hcon
      rw [hA2] at hAC
      have hdd := Option.some.inj hAC
      subst hdd
      have hcontra : removableWindow q1 p1 p2 = true :=
        (removableWindow_iff q1 p1 p2).2 ⟨dA, hA1, hB1⟩
      rw [hold] at hcontra
      exact Bool.noConfusion hcontra
  | case2 removals start path hg p1 p2 p3 h3 h2 h1 hrem ih =>
    intro hs hinv
    have hrem2 : removableWindow p1 p2 p3 = false := by simpa using hrem
    rw [condenseLoop_advance 0 removals start path hg p1 p2 p3 h1 h2 h3 hrem2]
    apply ih (by omega)
    intro c q1 q2 q3 hc1 hcs hq1 hq2 hq3
    by_cases hcl : c < start
    · exact hinv c q1 q2 q3 hc1 hcl hq1 hq2 hq3
    · have hceq : c = start := by omega
      subst hceq
      rw [h1] at hq1
      rw [h2] at hq2
      rw [h3] at hq3
      rw [← Option.some.inj hq1, ← Option.some.inj hq2, ← Option.some.inj hq3]
      exact hrem2
  | case3 removals start path hg hnone =>
    intro hs hinv
    exfalso
    have h2 := hg.2
    exact hnone path[start - 1] path[start] path[start + 1]
      (List.getElem?_eq_getElem (by omega)) (List.getElem?_eq_getElem (by omega))
      (List.getElem?_eq_getElem (by omega))
  | case4 removals start path hng =>
    intro hs hinv
    rw [condenseLoop_stop 0 removals start path hng]
    intro c q1 q2 q3 hc1 hq1 hq2 hq3
    have hc3 : c + 1 < path.length := lt_length_of_getElem? hq3
    have hB : ¬start < path.length - 1 := fun hb => hng ⟨Or.inl rfl, hb⟩
    exact hinv c q1 q2 q3 hc1 (by omega) hq1 hq2 hq3

/-- On a path with no removable window, the scan is the identity. -/
theorem condenseLoop_of_noRemovable (limit removals start : Nat) (path : List Point) :
    1 ≤ start → noRemovable path →
      condenseLoop limit removals start path = (path, removals) := by
  induction removals, start, path using condenseLoop.induct limit with
  | case1 removals start path hg p1 p2 p3 h3 h2 h1 hrem ih =>
    intro hs hnr
    exfalso
    have hfalse := hnr start p1 p2 p3 hs h1 h2 h3
    rw [hrem] at hfalse
    exact Bool.noConfusion hfalse
  | case2 removals start path hg p1 p2 p3 h3 h2 h1 hrem ih =>
    intro hs hnr
    have hrem2 : removableWindow p1 p2 p3 = false := by simpa using hrem
    rw [condenseLoop_advance limit removals start path hg p1 p2 p3 h1 h2 h3 hrem2]
    exact ih (by omega) hnr
  | case3 removals start path hg hnone =>
    intro hs hnr
    exfalso
    have h2 := hg.2
    exact hnone path[start - 1] path[start] path[start + 1]
      (List.getElem?_eq_getElem (by omega)) (List.getElem?_eq_getElem (by omega))
      (List.getElem?_eq_getElem (by omega))
  | case4 removals start path hng =>
    intro hs hnr
    exact condenseLoop_stop limit removals start path hng

/-- C5 counterexample to the claim as stated: with a removal limit of 1 the
straight path `[(0,0),(0,1),(0,2),(0,3)]` loses one point per call, so a
second `mutate` changes the path again — `mutate` is not idempotent for
every `PathCondenser`. -/
theorem c5_counterexample :
    (PathCondenser.mutate ⟨1⟩
        (PathCondenser.mutate ⟨1⟩ [⟨0, 0⟩, ⟨0, 1⟩, ⟨0, 2⟩, ⟨0, 3⟩]).1).1 ≠
      (PathCondenser.mutate ⟨1⟩ [⟨0, 0⟩, ⟨0, 1⟩, ⟨0, 2⟩, ⟨0, 3⟩]).1 := by
  have h1 : PathCondenser.mutate ⟨1⟩ [⟨0, 0⟩, ⟨0, 1⟩, ⟨0, 2⟩, ⟨0, 3⟩] =
      ([⟨0, 0⟩, ⟨0, 2⟩, ⟨0, 3⟩], true) := by
    simp [PathCondenser.mutate, condenseLoop.eq_def, removableWindow, Point.cardinal_to]
  rw [h1]
  have h2 : PathCondenser.mutate ⟨1⟩ [⟨0, 0⟩, ⟨0, 2⟩, ⟨0, 3⟩] =
      ([⟨0, 0⟩, ⟨0, 3⟩], true) := by
    simp [PathCondenser.mutate, condenseLoop.eq_def, removableWindow, Point.cardinal_to]
  rw [h2]
  decide

/-- C5 (amended): `PathCondenser::mutate` with removal limit 0 (unlimited)
is idempotent — a second application removes nothing and reports `false`;
with a nonzero limit a second application can remove further points.  For
every limit, a path of at most 2 points is left unchanged with result
`false`. -/
theorem c5_condenser_idempotent :
    (∀ path : List Point,
        PathCondenser.mutate ⟨0⟩ (PathCondenser.mutate ⟨0⟩ path).1 =
          ((PathCondenser.mutate ⟨0⟩ path).1, false)) ∧
      (∀ (c : PathCondenser) (path : List Point), path.length ≤ 2 →
        c.mutate path = (path, false)) := by
  constructor
  · intro path
    by_cases hlen : path.length < 3
    · have h1 : PathCondenser.mutate ⟨0⟩ path = (path, false) := by
        unfold PathCondenser.mutate
        rw [if_pos hlen]
      rw [h1]
      exact h1
    · have hfix : noRemovable (condenseLoop 0 0 1 path).1 := by
        apply condenseLoop_fixpoint 0 1 path (by omega)
        intro c q1 q2 q3 hc1 hcs _ _ _
        exact absurd hcs (by omega)
      have h1 : (PathCondenser.mutate ⟨0⟩ path).1 = (condenseLoop 0 0 1 path).1 := by
        unfold PathCondenser.mutate
        rw [if_neg hlen]
      rw [h1]
      unfold PathCondenser.mutate
      by_cases hlen2 : (condenseLoop 0 0 1 path).1.length < 3
      · rw [if_pos hlen2]
      · rw [if_neg hlen2]
        rw [condenseLoop_of_noRemovable 0 0 1 (condenseLoop 0 0 1 path).1 (by omega) hfix]
        rfl
  · intro c path hle
    unfold PathCondenser.mutate
    rw [if_pos (by omega)]

/-- C5 witness: the amended idempotence at the straight four-point path and
the short-path no-op at a two-point path with limit 7. -/
theorem c5_witness :
    PathCondenser.mutate ⟨0⟩ (PathCondenser.mutate ⟨0⟩ [⟨0, 0⟩, ⟨0, 1⟩, ⟨0, 2⟩, ⟨0, 3⟩]).1 =
        ((PathCondenser.mutate ⟨0⟩ [⟨0, 0⟩, ⟨0, 1⟩, ⟨0, 2⟩, ⟨0, 3⟩]).1, false) ∧
      ([⟨5, 5⟩, ⟨6, 5⟩] : List Point).length ≤ 2 ∧
      PathCondenser.mutate ⟨7⟩ [⟨5, 5⟩, ⟨6, 5⟩] = ([⟨5, 5⟩, ⟨6, 5⟩], false) :=
  ⟨c5_condenser_idempotent.1 [⟨0, 0⟩, ⟨0, 1⟩, ⟨0, 2⟩, ⟨0, 3⟩], by decide,
    c5_condenser_idempotent.2 ⟨7⟩ [⟨5, 5⟩, ⟨6, 5⟩] (by decide)⟩

/-- C10: `PathCondenser::mutate` only erases interior points: the mutated
path is a subsequence of the original (so no surviving point changes value)
that retains the original first and last points. -/
theorem c10_condenser_frame (c : PathCondenser) (path : List Point) :
    (c.mutate path).1.Sublist path ∧
      (c.mutate path).1.head? = path.head? ∧
      (c.mutate path).1.getLast? = path.getLast? := by
  unfold PathCondenser.mutate
  by_cases hlen : path.length < 3
  · rw [if_pos hlen]
    exact ⟨List.Sublist.refl _, rfl, rfl⟩
  · rw [if_neg hlen]
    exact condenseLoop_shape c.limit 0 1 path (by omega)

end Proliferatr
